import Mathlib

set_option maxHeartbeats 1000000

/-!
Verification of the recruiter-agent repository's approval-workflow core.

The definitions below are a shallow embedding of the Python sources:
  - src/main.py        (EmailWorkflowManager, the tool-use variant declarations)
  - src/gmail_tools.py (GmailService._clean_email_body)
  - src/tools/extract_tools.py and src/server.py (global-lock scratch area)
Machine strings are Lean Strings / List Char; Python dicts that only ever
hold string or integer values are association lists; raised exceptions are
Except values.
-/

namespace RecruiterAgent

/-! ## Python string primitives used by the sources -/

/-- Whitespace stripped by Python str.strip() and matched by the regex
class for whitespace, restricted to the ASCII range the repository's data
uses: space, tab, newline, carriage return, vertical tab, form feed. -/
def pyWhitespace (c : Char) : Bool :=
  c = ' ' || c = '\t' || c = '\n' || c = '\r' || c = '\x0b' || c = '\x0c'

/-- ASCII lowercasing, modelling Python str.lower() on the ASCII letters the
decision strings use. -/
def asciiLower (c : Char) : Char :=
  if 'A' ≤ c ∧ c ≤ 'Z' then Char.ofNat (c.toNat + 32) else c

/-- Drop trailing characters satisfying p (helper for stripping). -/
def dropTrailWhile (p : Char → Bool) (l : List Char) : List Char :=
  (l.reverse.dropWhile p).reverse

/-- Python str.strip() on a character list. -/
def pyStripL (l : List Char) : List Char :=
  dropTrailWhile pyWhitespace (l.dropWhile pyWhitespace)

/-- Python str.strip() on a String. -/
def pyStrip (s : String) : String :=
  String.mk (pyStripL s.data)

/-- Python str.lower() on a String (ASCII letters). -/
def pyLower (s : String) : String :=
  String.mk (s.data.map asciiLower)

/-- The decision-string normalisation the workflow applies before comparing
with the literal "yes": strip() then lower() (src/main.py line 216). -/
def cleanFeedback (s : String) : String :=
  pyLower (pyStrip s)

/-! ## Metadata dictionaries

The workflow state's metadata field is a Python dict holding strings and
integers; the nodes extend it with dict-literal merges where later keys
override earlier ones. -/

/-- A metadata value: the sources store strings and integer lengths. -/
inductive MVal where
  | s (v : String)
  | n (v : Nat)
deriving DecidableEq, Repr

/-- A Python dict with string keys, as an association list. -/
def Metadata := List (String × MVal)

instance : DecidableEq Metadata := by
  unfold Metadata
  infer_instance

instance : Repr Metadata := by
  unfold Metadata
  infer_instance

/-- Dict update: set key k to v, overriding any previous binding. -/
def mset (m : Metadata) (k : String) (v : MVal) : Metadata :=
  (k, v) :: m.filter (fun p => p.1 ≠ k)

/-- Dict lookup. -/
def mget (m : Metadata) (k : String) : Option MVal :=
  (m.find? (fun p => p.1 = k)).map (fun p => p.2)

/-! ## The GraphState of the email workflow

src/main.py drives a LangGraph StateGraph over a state with channels
user_request, session_id, email_draft, user_feedback and metadata (the
GraphState annotation itself is referenced but its class body is not in
src/; the channels are taken from every read and write the nodes perform).
A node returns a partial update that is merged into the state. -/

structure GraphState where
  user_request : String := ""
  session_id : String := ""
  email_draft : Option String := none
  user_feedback : Option String := none
  metadata : Metadata := []
deriving DecidableEq, Repr

/-- The error taxonomy of the specification. The source raises only the
draft generator's own exception (embedded as generation); invalidState and
sendError name the spec's InvalidStateError and SendError so claims about
them can be stated — no code path in src/main.py produces them. -/
inductive WError where
  | generation (msg : String)
  | invalidState
  | sendError
deriving DecidableEq, Repr

/-- Embeds EmailWorkflowManager._draft_email_node (src/main.py 169-188):
invokes the email generation chain on the user_request, writes the draft
and stamps metadata; an exception from the chain is logged and re-raised.
The chain is a parameter gen; ts is the resolved TIMESTAMP environment
lookup used for the metadata stamp. -/
def draftEmailNode (gen : String → Except String String)
    (ts : String) (s : GraphState) : Except WError GraphState :=
  match gen s.user_request with
  | .error e => .error (.generation e)
  | .ok email_draft =>
      .ok { s with
        email_draft := some email_draft,
        metadata :=
          mset (mset s.metadata "draft_created_at" (.s ts))
            "draft_length" (.n email_draft.length) }

/-- Embeds EmailWorkflowManager._send_email_node (src/main.py 190-202).
The second component records the Send Sink invocations the node performs:
it performs none — the body only logs "Email marked for sending" and stamps
metadata with status sent and sent_at (the integration with an email
service is left as a comment in the source). -/
def sendEmailNodeT (ts : String) (s : GraphState) : GraphState × List String :=
  ({ s with
      metadata :=
        mset (mset s.metadata "status" (.s "sent")) "sent_at" (.s ts) },
    [])

/-- Embeds EmailWorkflowManager._operation_cancelled_node
(src/main.py 204-212): stamps metadata with status cancelled. -/
def operationCancelledNode (s : GraphState) : GraphState :=
  { s with metadata := mset s.metadata "status" (.s "cancelled") }

/-- Embeds EmailWorkflowManager._should_send_email (src/main.py 214-223):
strip().lower() the user_feedback channel (missing key reads as "") and
route to send_email exactly on "yes", otherwise to cancel_operation. -/
def shouldSendEmail (s : GraphState) : String :=
  if cleanFeedback (s.user_feedback.getD "") = "yes"
  then "send_email" else "cancel_operation"

/-- Result dict of start_workflow (src/main.py 225-264). -/
structure StartResult where
  session_id : String
  current_state : GraphState
  email_draft : String
  status : String
deriving DecidableEq, Repr

/-- Embeds EmailWorkflowManager.start_workflow (src/main.py 225-264): build
the initial state, run the graph — which executes draft_email and then
interrupts (the app is compiled with an interruption after draft_email) —
and return the session dict with the draft read back from the state
(missing draft reads as "") and the literal status "awaiting_approval".
A generator exception propagates out of the stream call. -/
def startWorkflow (gen : String → Except String String) (ts : String)
    (user_request session_id : String) : Except WError StartResult :=
  let init : GraphState :=
    { user_request := user_request,
      session_id := session_id,
      metadata :=
        mset (mset [] "created_at" (.s ts))
          "request_length" (.n user_request.length) }
  match draftEmailNode gen ts init with
  | .error e => .error e
  | .ok st =>
      .ok { session_id := session_id,
            current_state := st,
            email_draft := st.email_draft.getD "",
            status := "awaiting_approval" }

/-- Result dict of resume_workflow (src/main.py 266-295). -/
structure ResumeResult where
  session_id : String
  final_state : GraphState
  status : String
deriving DecidableEq, Repr

/-- Embeds EmailWorkflowManager.resume_workflow (src/main.py 266-295)
together with the graph wiring of _build_workflow (143-167): merge the
user_feedback into the session's checkpointed state, follow the
conditional edge out of draft_email to send_email or cancel_operation, run
that node to END, and return the final state under the literal top-level
status "completed". resume_workflow performs no status check of its own
and raises nothing. The second component records the Send Sink invocations
performed while resuming. -/
def resumeWorkflowT (ts : String) (s : GraphState) (feedback : String) :
    Except WError ResumeResult × List String :=
  let s1 : GraphState := { s with user_feedback := some feedback }
  if shouldSendEmail s1 = "send_email" then
    let r := sendEmailNodeT ts s1
    (.ok { session_id := s.session_id, final_state := r.1,
           status := "completed" }, r.2)
  else
    (.ok { session_id := s.session_id,
           final_state := operationCancelledNode s1,
           status := "completed" }, [])

/-- resume_workflow's returned value (the Send Sink call trace dropped). -/
def resumeWorkflow (ts : String) (s : GraphState) (feedback : String) :
    Except WError ResumeResult :=
  (resumeWorkflowT ts s feedback).1

/-! ## The workflow graph of _build_workflow (src/main.py 143-167) -/

/-- The nodes of the compiled graph, plus the END sentinel. -/
inductive GNode where
  | draft_email
  | send_email
  | cancel_operation
  | END
deriving DecidableEq, Repr

/-- The edge set wired by _build_workflow: a conditional edge from
draft_email to send_email and to cancel_operation, and plain edges from
send_email and cancel_operation to END. -/
def graphEdge : GNode → GNode → Bool
  | .draft_email, .send_email => true
  | .draft_email, .cancel_operation => true
  | .send_email, .END => true
  | .cancel_operation, .END => true
  | _, _ => false

/-- A rank witnessing that the graph only moves forward. -/
def nodeRank : GNode → Nat
  | .draft_email => 0
  | .send_email => 1
  | .cancel_operation => 1
  | .END => 2

/-! ## Spec-modelled send decision (claim C6)

src/main.py never integrates a fallible Send Sink: _send_email_node carries
the comment that a real implementation would integrate with an email
service and simulates an always-successful send. The failure contract is
therefore modelled from the specification. -/

/-- Session status values of the specification's data model. -/
inductive SessStatus where
  | drafting
  | awaiting_enhancement_decision
  | enhancing
  | awaiting_send_decision
  | sent
  | cancelled
  | max_retries_reached
deriving DecidableEq, Repr

/-- The specification's Session, restricted to the fields decide_send
reads and writes. -/
structure SpecSession where
  session_id : String
  draft : String
  status : SessStatus
deriving DecidableEq, Repr

/-- Modelled from the spec: the Send Sink integration that is absent from
src/main.py's _send_email_node (the source simulates an always-successful
send and never surfaces a failure). Follows the spec's decide_send
operation and its chosen send-failure contract: valid only in
awaiting_send_decision, otherwise InvalidStateError; on "yes" invoke the
sink with the final draft, on success transition to sent, on sink failure
surface SendError leaving the session in awaiting_send_decision; on any
non-"yes" input transition to cancelled with no sink call. -/
def decide_send (sink : String → Except String String)
    (sess : SpecSession) (choice : String) : Except WError SpecSession :=
  if sess.status ≠ SessStatus.awaiting_send_decision then
    .error .invalidState
  else if cleanFeedback choice = "yes" then
    match sink sess.draft with
    | .ok _ => .ok { sess with status := .sent }
    | .error _ => .error .sendError
  else
    .ok { sess with status := .cancelled }

/-! ## Spec-modelled tool-use variant (claim C3)

src/main.py declares MAX_RETRIES = 3 (line 29) and an AgentState whose
retry_count starts at 0 and whose user_choice can become "cancelled" or
"max_retries" (lines 31-36, 339-360), and should_continue routes an
AI tool call to a node named human_approval — but no node implementing the
human-approval retry decision is in src/. The approve operation is
therefore modelled from the specification. -/

/-- MAX_RETRIES = 3 (src/main.py line 29). -/
def MAX_RETRIES : Nat := 3

/-- The tool-use variant's states as the spec names them. -/
inductive TStatus where
  | agent_deciding
  | human_approval
  | execute_tool
  | cancelled
  | max_retries_reached
deriving DecidableEq, Repr

/-- The tool-use session: retry_count plus control state. -/
structure ToolSession where
  retry_count : Nat
  status : TStatus
deriving DecidableEq, Repr

/-- The initial tool-use session: AgentState declares
retry_count int = 0 (src/main.py line 33) and the agent decides first. -/
def initToolSession : ToolSession :=
  { retry_count := 0, status := .agent_deciding }

/-- Modelled from the spec: the approve operation of the tool-use variant,
whose implementing node is missing from src/ (src/main.py only declares
MAX_RETRIES, AgentState.retry_count and the human_approval routing target).
Valid only in human_approval; on "yes" transition to execute_tool; on
"retry" increment retry_count and transition to max_retries_reached when
the incremented count reaches MAX_RETRIES, otherwise back to
agent_deciding with the count preserved; on any other input transition to
cancelled. -/
def approve (sess : ToolSession) (choice : String) :
    Except WError ToolSession :=
  if sess.status ≠ TStatus.human_approval then
    .error .invalidState
  else if choice = "yes" then
    .ok { sess with status := .execute_tool }
  else if choice = "retry" then
    let rc := sess.retry_count + 1
    if MAX_RETRIES ≤ rc then
      .ok { retry_count := rc, status := .max_retries_reached }
    else
      .ok { retry_count := rc, status := .agent_deciding }
  else
    .ok { sess with status := .cancelled }

/-- One move of the tool-use loop: the agent proposes a tool call
(suspending for human approval), a human decision is applied through
approve, or the approved tool executes and control returns to the agent
for the next turn. -/
inductive ToolStep : ToolSession → ToolSession → Prop where
  | propose (s : ToolSession) (h : s.status = .agent_deciding) :
      ToolStep s { s with status := .human_approval }
  | decide (s s' : ToolSession) (c : String)
      (h : approve s c = Except.ok s') : ToolStep s s'
  | execute (s : ToolSession) (h : s.status = .execute_tool) :
      ToolStep s { s with status := .agent_deciding }

/-- The sessions reachable from the initial tool-use session. -/
def ToolReachable (s : ToolSession) : Prop :=
  Relation.ReflTransGen ToolStep initToolSession s

/-! ## The global-lock scratch area (claim C8)

src/tools/extract_tools.py stashes the most recently extracted job and
resume details in the process-wide dicts JOB_DETAILS and CV_DETAILS,
clearing and repopulating them inside with-global_lock blocks
(lines 112-116, 134-138, 240-244, 256-260); src/server.py's upload_file
copies both dicts inside a with-global_lock block (lines 451-456). The
globalc module defining the dicts and the lock is imported from outside
src/; global_lock is a standard mutual-exclusion lock. Each access
sequence is modelled as the list of atomic actions it performs, and the
interleaved execution of any collection of these sequences is a small
transition system. -/

/-- The atomic actions the scratch-area access sequences perform. -/
inductive LAct where
  | acquire
  | release
  | clearJob
  | popJob
  | clearCv
  | popCv
  | readJob
  | readCv
deriving DecidableEq, Repr

/-- extract_job_details' save (extract_tools.py 112-116; the error path at
134-138 has the same shape): with global_lock, JOB_DETAILS.clear() then
JOB_DETAILS.update(result). -/
def writerJobProg : List LAct := [.acquire, .clearJob, .popJob, .release]

/-- extract_applicant_details' save (extract_tools.py 240-244; the error
path at 256-260 has the same shape): with global_lock, CV_DETAILS.clear()
then CV_DETAILS.update(result). -/
def writerCvProg : List LAct := [.acquire, .clearCv, .popCv, .release]

/-- upload_file's read (server.py 451-456): with global_lock, copy
JOB_DETAILS then copy CV_DETAILS. -/
def readerProg : List LAct := [.acquire, .readJob, .readCv, .release]

/-- A configuration of the interleaved execution: the remaining action
list of every thread, the lock holder, and whether each dict is currently
cleared but not yet repopulated. -/
structure LConf where
  threads : List (List LAct)
  lock : Option Nat
  jobMid : Bool
  cvMid : Bool
deriving DecidableEq, Repr

/-- Read the i-th thread's remaining program. -/
def getNth {α : Type} : List α → Nat → Option α
  | [], _ => none
  | x :: _, 0 => some x
  | _ :: xs, n + 1 => getNth xs n

/-- Replace the i-th thread's remaining program. -/
def setNth {α : Type} : List α → Nat → α → List α
  | [], _, _ => []
  | _ :: xs, 0, a => a :: xs
  | x :: xs, n + 1, a => x :: setNth xs n a

/-- The effect of thread i executing action a (rest is its remaining
program). The lock preconditions live in LStep; reads do not change the
shared state. -/
def applyAct (c : LConf) (i : Nat) (a : LAct) (rest : List LAct) : LConf :=
  let ts := setNth c.threads i rest
  match a with
  | .acquire => { c with threads := ts, lock := some i }
  | .release => { c with threads := ts, lock := none }
  | .clearJob => { c with threads := ts, jobMid := true }
  | .popJob => { c with threads := ts, jobMid := false }
  | .clearCv => { c with threads := ts, cvMid := true }
  | .popCv => { c with threads := ts, cvMid := false }
  | .readJob => { c with threads := ts }
  | .readCv => { c with threads := ts }

/-- One interleaving step: some thread executes its next action. Acquiring
blocks until the lock is free; releasing is done by the holder (the Python
with-statement guarantees this pairing); every other action is
unconstrained — the semantics itself does not force accesses to be
guarded, that is what the theorem establishes about these programs. -/
inductive LStep : LConf → LConf → Prop where
  | mk (c : LConf) (i : Nat) (a : LAct) (rest : List LAct)
      (hget : getNth c.threads i = some (a :: rest))
      (hacq : a = .acquire → c.lock = none)
      (hrel : a = .release → c.lock = some i) :
      LStep c (applyAct c i a rest)

/-- The initial configuration for a collection of threads: nothing holds
the lock and neither dict is mid-update. -/
def initLConf (ts : List (List LAct)) : LConf :=
  { threads := ts, lock := none, jobMid := false, cvMid := false }

/-- Configurations reachable from running the given threads. -/
def LReachable (ts : List (List LAct)) (c : LConf) : Prop :=
  Relation.ReflTransGen LStep (initLConf ts) c

/-- A thread is about to observe a cleared-but-not-yet-repopulated dict:
its next action copies a dict whose mid-update flag is set. -/
def Observes (c : LConf) : Bool :=
  c.threads.any (fun p =>
    (p.head? = some .readJob && c.jobMid) ||
    (p.head? = some .readCv && c.cvMid))

/-- Every suffix of the three access sequences; the remaining program of
any thread always lies in this list. -/
def allSuffixes : List (List LAct) :=
  [writerJobProg, [.clearJob, .popJob, .release], [.popJob, .release],
   writerCvProg, [.clearCv, .popCv, .release], [.popCv, .release],
   readerProg, [.readJob, .readCv, .release], [.readCv, .release],
   [.release], []]

/-- A remaining program holds the lock when it still owes a release it has
no pending acquire for. -/
def holding (p : List LAct) : Bool :=
  p.count LAct.acquire < p.count LAct.release

/-! ## Regular expressions for _clean_email_body (claim C10)

GmailService._clean_email_body (src/gmail_tools.py 213-262) drops every
line from the first line on which re.search finds one of fifteen quote
patterns (case-insensitively), then strips the joined text and removes a
trailing dash/underscore run. The patterns use only literals, the classes
for whitespace, non-whitespace, word, digit and dot, bracketed classes,
and the quantifiers plus, star, option and small counted repeats, so a
small derivative-based matcher embeds re.search exactly on them. Case
insensitivity is embedded by lowercasing the searched line and writing the
patterns' literals in lowercase. -/

/-- A single-character pattern atom. -/
inductive CCls where
  | ws
  | nonws
  | word
  | digit
  | dot
  | lit (a : Char)
  | notCh (a : Char)
  | oneOf (l : List Char)
deriving DecidableEq, Repr

/-- Whether a character matches an atom, as in Python re on the ASCII
range: the whitespace class is the strip set, word is letters, digits and
underscore, dot is anything but a newline. -/
def cmatch : CCls → Char → Bool
  | .ws, c => pyWhitespace c
  | .nonws, c => !pyWhitespace c
  | .word, c =>
      ('a' ≤ c && c ≤ 'z') || ('A' ≤ c && c ≤ 'Z') ||
      ('0' ≤ c && c ≤ '9') || c = '_'
  | .digit, c => '0' ≤ c && c ≤ '9'
  | .dot, c => c ≠ '\n'
  | .lit a, c => c = a
  | .notCh a, c => c ≠ a
  | .oneOf l, c => c ∈ l

/-- Regular expressions over character atoms. -/
inductive Rgx where
  | empt
  | eps
  | cls (k : CCls)
  | seq (r1 r2 : Rgx)
  | alt (r1 r2 : Rgx)
  | star (r : Rgx)
deriving DecidableEq, Repr

/-- Whether the empty string matches. -/
def nullable : Rgx → Bool
  | .empt => false
  | .eps => true
  | .cls _ => false
  | .seq r1 r2 => nullable r1 && nullable r2
  | .alt r1 r2 => nullable r1 || nullable r2
  | .star _ => true

/-- Brzozowski derivative with respect to one character. -/
def deriv : Rgx → Char → Rgx
  | .empt, _ => .empt
  | .eps, _ => .empt
  | .cls k, c => if cmatch k c then .eps else .empt
  | .seq r1 r2, c =>
      if nullable r1 then
        .alt (.seq (deriv r1 c) r2) (deriv r2 c)
      else
        .seq (deriv r1 c) r2
  | .alt r1 r2, c => .alt (deriv r1 c) (deriv r2 c)
  | .star r, c => .seq (deriv r c) (.star r)

/-- Whether some prefix of the character list matches the expression. -/
def matchesPfx : Rgx → List Char → Bool
  | r, [] => nullable r
  | r, c :: cs => nullable r || matchesPfx (deriv r c) cs

/-- re.search: whether the expression matches somewhere inside the list. -/
def rsearch : Rgx → List Char → Bool
  | r, [] => nullable r
  | r, c :: cs => matchesPfx r (c :: cs) || rsearch r cs

/-- A literal word, one atom per character. -/
def rlit (s : String) : Rgx :=
  s.data.foldr (fun c r => .seq (.cls (.lit c)) r) .eps

/-- Concatenation of a pattern list. -/
def rseq (l : List Rgx) : Rgx := l.foldr .seq .eps

/-- One or more of r. -/
def rplus (r : Rgx) : Rgx := .seq r (.star r)

/-- Zero or one of r. -/
def ropt (r : Rgx) : Rgx := .alt r .eps

/-- A single whitespace character. -/
def rws : Rgx := .cls .ws

/-- One or more whitespace characters. -/
def rws1 : Rgx := rplus (.cls .ws)

/-- Zero or more whitespace characters. -/
def rws0 : Rgx := .star (.cls .ws)

/-- One or more of any character (dot-plus). -/
def rany1 : Rgx := rplus (.cls .dot)

/-- One or more word characters. -/
def rword1 : Rgx := rplus (.cls .word)

/-- One or more digits. -/
def rdig1 : Rgx := rplus (.cls .digit)

/-- One or more non-whitespace characters. -/
def rnonws1 : Rgx := rplus (.cls .nonws)

/-- One or two digits. -/
def rdig12 : Rgx := .seq (.cls .digit) (ropt (.cls .digit))

/-- Exactly four digits. -/
def rdig4 : Rgx :=
  rseq [.cls .digit, .cls .digit, .cls .digit, .cls .digit]

/-- The am/pm marker bracketed class followed by the letter m. -/
def rapm : Rgx := .seq (.cls (.oneOf ['a', 'p'])) (.cls (.lit 'm'))

/-- The fifteen quote patterns of _clean_email_body
(src/gmail_tools.py 219-235), literals lowercased for the re.IGNORECASE
search over the lowercased line. -/
def quotePatterns : List Rgx :=
  [ rseq [rlit "on", rws, rany1, rws, rlit "at", rws, rany1, rlit ",",
      rws, rany1, rws, rlit "<", rany1, rlit "@", rany1, rlit ">",
      rws1, rlit "wrote:"],
    rseq [rlit "on", rws, rany1, rws1, rlit "<", rany1, rlit "@", rany1,
      rlit ">", rws1, rlit "wrote:"],
    rseq [rlit "on", rws, rany1, rws1, rlit "<", rany1, rlit "@", rany1,
      rlit ">", rws, rlit "on", rws, rany1, rws, rlit "wrote:"],
    rseq [rlit "from:", rws1, rany1, rws1, rlit "sent:", rws1, rany1,
      rws1, rlit "to:"],
    rseq [rlit "----", rws0, rlit "original message", rws0, rlit "----"],
    rseq [rlit "from:", rws0, rnonws1, rlit "@", rnonws1],
    rseq [rlit "to:", rws0, rnonws1, rlit "@", rnonws1],
    rseq [rlit "on", rws1, rword1, rlit ",", rws1, rword1, rws1, rdig1,
      rlit ",", rws1, rdig1, rws1, rlit "at", rws1, rdig1, rlit ":",
      rdig1, rws1, rapm, rws1, rword1, rws1, rlit "<"],
    rseq [rlit "on", rws1, rword1, rws1, rdig12, rlit ",", rws1, rdig4,
      rlit ",", rws1, rlit "at", rws1, rdig1, rlit ":", rdig1, rws1,
      rapm, rws1, rword1, rws1, rlit "<"],
    rseq [rlit "on", rws1, rword1, rws1, rdig12, rws1, rword1, rws1,
      rdig4, rlit ",", rws1, rlit "at", rws1, rdig1, rlit ":", rdig1,
      rws1, rapm, rws1, rword1, rws1, rlit "<"],
    rseq [rlit "on", rws1, rword1, rws1, rdig12, rws1, rword1, rws1,
      rdig4, rws1, rlit "at", rws1, rdig1, rlit ":", rdig1, rws1, rapm,
      rws1, rword1, rws1, rlit "<"],
    rseq [rlit "on", rws1, rword1, rws1, rdig12, rws1, rword1, rws1,
      rdig4, rws1, rlit "at", rws1, rdig1, rlit ":", rdig1, rws1, rapm,
      rws1, rword1, rws1, rlit "(", rplus (.cls (.notCh ')')),
      rlit ")", rws1, rlit "<"],
    rseq [rlit "on", rws1, rword1, rws1, rdig12, rws1, rword1, rws1,
      rdig4, rws1, rlit "at", rws1, rdig1, rlit ":", rdig1, rws1, rapm,
      rws1, rplus (.cls (.notCh '<')), rws1, rlit "<"],
    rseq [rlit "on", rws1, rword1, rws1, rdig12, rws1, rword1, rws1,
      rdig4, rws1, rlit "at", rws1, rdig1, rlit ":", rdig1, rws1, rapm,
      rws1, rplus (.cls (.notCh '<')), rws1, rlit "<",
      rplus (.cls (.notCh '>')), rlit ">", rws1, rlit "wrote:"],
    rseq [rlit "on", rws1, rword1, rws1, rdig12, rws1, rword1, rws1,
      rdig4, rws1, rlit "at", rws1, rdig1, rlit ":", rdig1, rws1, rapm,
      rws1, rplus (.cls (.notCh '<')), rws1, rlit "<",
      rplus (.cls (.notCh '>')), rlit ">", rws1, rlit "said:"] ]

/-! ## The _clean_email_body pipeline (src/gmail_tools.py 213-262) -/

/-- Split a character list into its newline-separated lines, as Python
str.split of a newline does. -/
def splitNl : List Char → List (List Char)
  | [] => [[]]
  | c :: cs =>
      let r := splitNl cs
      if c = '\n' then [] :: r else (c :: r.headI) :: r.tail

/-- Join lines back with newlines, as a newline str.join does. -/
def joinNl : List (List Char) → List Char
  | [] => []
  | [x] => x
  | x :: xs => x ++ '\n' :: joinNl xs

/-- Whether any of the quote patterns is found in the line, searched
case-insensitively (the loop over quote_patterns with re.search and
re.IGNORECASE at gmail_tools.py 241-248). -/
def isQuoteLine (line : List Char) : Bool :=
  quotePatterns.any (fun r => rsearch r (line.map asciiLower))

/-- The kept lines: the source's for-loop appends each line until it
first hits a quote line, at which point it breaks
(gmail_tools.py 241-254). -/
def keepLines : List (List Char) → List (List Char)
  | [] => []
  | l :: ls => if isQuoteLine l then [] else l :: keepLines ls

/-- Whether a character is a trailing dash or underscore. -/
def isDashUnd (c : Char) : Bool := c = '-' || c = '_'

/-- The re.sub removing a trailing dash/underscore run and the whitespace
after it (the end-anchored dash pattern at gmail_tools.py 260); when no
such run ends the text, it is unchanged. -/
def subTrailingDashes (l : List Char) : List Char :=
  let t := dropTrailWhile pyWhitespace l
  match t.getLast? with
  | some c => if isDashUnd c then dropTrailWhile isDashUnd t else l
  | none => l

/-- GmailService._clean_email_body (src/gmail_tools.py 213-262): empty
input returns empty; otherwise split into lines, keep the lines before
the first quote line, join, strip, drop a trailing dash/underscore run,
and strip again. -/
def cleanEmailBody (body : List Char) : List Char :=
  if body = [] then []
  else
    pyStripL (subTrailingDashes (pyStripL (joinNl (keepLines (splitNl body)))))

/-- _clean_email_body on Strings. -/
def cleanEmailBodyS (s : String) : String :=
  String.mk (cleanEmailBody s.data)

/-- t occurs contiguously inside s. -/
def InfixOf (t s : List Char) : Prop :=
  ∃ u v, s = u ++ t ++ v

/-! ## Concrete instances used to evaluate the claims -/

/-- A draft generator stub that always returns the empty string. -/
def genEmpty : String → Except String String := fun _ => .ok ""

/-- A draft generator stub that always fails. -/
def genFail : String → Except String String := fun _ => .error "boom"

/-- A draft generator stub returning the text Hello. -/
def genHello : String → Except String String := fun _ => .ok "Hello"

/-- A Send Sink stub that always fails. -/
def sinkFail : String → Except String String := fun _ => .error "smtp down"

/-- A Send Sink stub that always succeeds with message id m1. -/
def sinkOk : String → Except String String := fun _ => .ok "m1"

/-- A session interrupted after drafting, draft Hello, awaiting the send
decision. -/
def awaitingSession : GraphState :=
  { user_request := "draft update email",
    session_id := "s1",
    email_draft := some "Hello",
    metadata := [] }

/-- A session whose run already finished with metadata status sent. -/
def sentSession : GraphState :=
  { user_request := "draft update email",
    session_id := "s1",
    email_draft := some "Hello",
    user_feedback := some "yes",
    metadata := [("status", MVal.s "sent")] }

/-- The spec-level session awaiting the send decision with draft Hello. -/
def c6Session : SpecSession :=
  { session_id := "s1", draft := "Hello",
    status := .awaiting_send_decision }

/-! ## Invariant of the lock transition system -/

/-- The inductive invariant of the scratch-area transition system: every
thread's remaining program is a suffix of one of the three access
sequences; when the lock is free no thread is inside a critical section
and no dict is mid-update; when thread i holds the lock, every other
thread is outside its critical section, and a mid-update dict means the
holder's very next action is the repopulating update. -/
def LInv (c : LConf) : Prop :=
  (∀ p ∈ c.threads, p ∈ allSuffixes) ∧
  (c.lock = none →
    (∀ p ∈ c.threads, holding p = false) ∧
    c.jobMid = false ∧ c.cvMid = false) ∧
  (∀ i, c.lock = some i →
    ∃ p, getNth c.threads i = some p ∧ holding p = true ∧
      (∀ j q, j ≠ i → getNth c.threads j = some q → holding q = false) ∧
      (c.jobMid = true → p.head? = some .popJob) ∧
      (c.cvMid = true → p.head? = some .popCv))

/-- The inductive invariant of the tool-use loop: the retry count never
passes MAX_RETRIES, and reaching it means the session is already in the
terminal max_retries_reached state. -/
def ToolInv (s : ToolSession) : Prop :=
  s.retry_count ≤ MAX_RETRIES ∧
  (s.retry_count = MAX_RETRIES → s.status = .max_retries_reached)

/-! ## Helper for line decompositions -/

/-- Append a tail to the last element of a line list. -/
def modLast : List (List Char) → List Char → List (List Char)
  | [], h => [h]
  | [x], h => [x ++ h]
  | x :: y :: xs, h => x :: modLast (y :: xs) h

/-! ## Theorems: metadata dictionaries -/

theorem find?_keys_filter (l : List (String × MVal)) (k k' : String)
    (h : k ≠ k') :
    List.find? (fun p => p.1 = k) (l.filter (fun p => p.1 ≠ k')) =
      List.find? (fun p => p.1 = k) l := by
  induction l with
  | nil => rfl
  | cons a l ih =>
    by_cases ha : a.1 = k'
    · have hak : (decide (a.1 = k)) = false := by simp [ha, Ne.symm h]
      rw [List.filter_cons_of_neg (by simp [ha])]
      rw [ih]
      rw [List.find?_cons_of_neg _ (by simp [hak])]
    · rw [List.filter_cons_of_pos (by simp [ha])]
      by_cases hk : a.1 = k
      · rw [List.find?_cons_of_pos _ (by simp [hk]),
          List.find?_cons_of_pos _ (by simp [hk])]
      · rw [List.find?_cons_of_neg _ (by simp [hk]),
          List.find?_cons_of_neg _ (by simp [hk]), ih]

theorem mget_mset_self (m : Metadata) (k : String) (v : MVal) :
    mget (mset m k v) k = some v := by
  simp [mget, mset, List.find?]

theorem mget_mset_ne (m : Metadata) (k k' : String) (v : MVal)
    (h : k ≠ k') : mget (mset m k' v) k = mget m k := by
  have h' : (decide (k' = k)) = false := by simp [Ne.symm h]
  unfold mget mset
  rw [List.find?_cons_of_neg _ (by simp [h']), find?_keys_filter _ _ _ h]

/-! ## Theorems: resuming the email workflow -/

theorem resumeWorkflowT_eq_yes (ts f : String) (s : GraphState)
    (h : cleanFeedback f = "yes") :
    resumeWorkflowT ts s f =
      (.ok { session_id := s.session_id,
             final_state :=
               { s with
                 user_feedback := some f,
                 metadata := mset (mset s.metadata "status" (.s "sent"))
                   "sent_at" (.s ts) },
             status := "completed" }, []) := by
  simp [resumeWorkflowT, shouldSendEmail, sendEmailNodeT, h]

theorem resumeWorkflowT_eq_no (ts f : String) (s : GraphState)
    (h : cleanFeedback f ≠ "yes") :
    resumeWorkflowT ts s f =
      (.ok { session_id := s.session_id,
             final_state :=
               { s with
                 user_feedback := some f,
                 metadata := mset s.metadata "status" (.s "cancelled") },
             status := "completed" }, []) := by
  simp [resumeWorkflowT, shouldSendEmail, operationCancelledNode, h]

/-- C1 counterexample: the claim says deciding "yes" invokes the Send Sink
on the current draft; on a concrete session awaiting approval with draft
Hello, the resume performs no Send Sink invocation at all — its recorded
invocation trace is empty rather than containing the draft. -/
theorem claim_C1_counterexample :
    (resumeWorkflowT "unknown" awaitingSession "yes").2 = [] ∧
    ([] : List String) ≠ ["Hello"] ∧
    awaitingSession.email_draft = some "Hello" := by
  refine ⟨rfl, by decide, rfl⟩

/-- C1 amended: on a "yes" decision (after strip and lowercase) the
session is routed to the send node, which records status sent in the
session metadata without invoking any Send Sink — the send is simulated
and always succeeds; on any non-"yes" input the session is routed to the
cancel node, which records status cancelled, performs no Send Sink call
and leaves the draft unchanged. -/
theorem claim_C1_decide_send (ts f : String) (s : GraphState) :
    (resumeWorkflowT ts s f).2 = [] ∧
    (cleanFeedback f = "yes" →
      ∃ res, resumeWorkflow ts s f = .ok res ∧
        mget res.final_state.metadata "status" = some (.s "sent") ∧
        res.final_state.email_draft = s.email_draft) ∧
    (cleanFeedback f ≠ "yes" →
      ∃ res, resumeWorkflow ts s f = .ok res ∧
        mget res.final_state.metadata "status" = some (.s "cancelled") ∧
        res.final_state.email_draft = s.email_draft) := by
  by_cases h : cleanFeedback f = "yes"
  · simp only [resumeWorkflow, resumeWorkflowT_eq_yes ts f s h]
    refine ⟨trivial, fun _ => ⟨_, rfl, ?_, rfl⟩, fun hn => absurd h hn⟩
    rw [mget_mset_ne _ _ _ _ (by decide), mget_mset_self]
  · simp only [resumeWorkflow, resumeWorkflowT_eq_no ts f s h]
    refine ⟨trivial, fun hy => absurd hy h, fun _ => ⟨_, rfl, ?_, rfl⟩⟩
    rw [mget_mset_self]

/-- C1 witness: the amended claim evaluated on the awaiting session for
the decision " Yes ": no Send Sink invocation is recorded and the session
metadata carries status sent. -/
theorem claim_C1_witness :
    (resumeWorkflowT "unknown" awaitingSession " Yes ").2 = [] ∧
    resumeWorkflow "unknown" awaitingSession " Yes " =
      .ok { session_id := "s1",
            final_state :=
              { user_request := "draft update email",
                session_id := "s1",
                email_draft := some "Hello",
                user_feedback := some " Yes ",
                metadata := [("sent_at", MVal.s "unknown"),
                  ("status", MVal.s "sent")] },
            status := "completed" } :=
  ⟨(claim_C1_decide_send "unknown" " Yes " awaitingSession).1, rfl⟩

/-- C2 counterexample: on a concrete session whose run already finished
with metadata status sent, a subsequent resume_workflow call does not fail
with InvalidStateError — it returns a normal completed result (no status
guard exists in the code). -/
theorem claim_C2_counterexample :
    (resumeWorkflow "unknown" sentSession "no").isOk = true ∧
    resumeWorkflow "unknown" sentSession "no" ≠ .error .invalidState := by
  constructor
  · rfl
  · intro hbad
    have h1 : (Except.error WError.invalidState :
        Except WError ResumeResult).isOk = true := by
      rw [← hbad]
      rfl
    simp [Except.isOk, Except.toBool] at h1

/-- C2 amended: within a run, the compiled workflow graph only moves
forward — every edge strictly increases the node rank and the terminal
nodes send_email and cancel_operation lead only to END — but finished
sessions are not guarded: resume_workflow never fails (in particular never
with the spec's InvalidStateError), returning a completed result for any
session state. -/
theorem claim_C2_forward_only :
    (∀ a b, graphEdge a b = true → nodeRank a < nodeRank b) ∧
    (∀ b, graphEdge .send_email b = true → b = .END) ∧
    (∀ b, graphEdge .cancel_operation b = true → b = .END) ∧
    (∀ ts f : String, ∀ s : GraphState,
      (resumeWorkflow ts s f).isOk = true) := by
  refine ⟨?_, ?_, ?_, ?_⟩
  · intro a b hab
    cases a <;> cases b <;> simp_all [graphEdge, nodeRank]
  · intro b hb
    cases b <;> simp_all [graphEdge]
  · intro b hb
    cases b <;> simp_all [graphEdge]
  · intro ts f s
    by_cases h : cleanFeedback f = "yes"
    · simp only [resumeWorkflow, resumeWorkflowT_eq_yes ts f s h]
      rfl
    · simp only [resumeWorkflow, resumeWorkflowT_eq_no ts f s h]
      rfl

/-- C2 witness: the amended claim evaluated on the conditional edge to
send_email and on resuming the already-sent session. -/
theorem claim_C2_witness :
    nodeRank GNode.draft_email < nodeRank GNode.send_email ∧
    (resumeWorkflow "unknown" sentSession "yes").isOk = true :=
  ⟨claim_C2_forward_only.1 GNode.draft_email GNode.send_email rfl,
   claim_C2_forward_only.2.2.2 "unknown" "yes" sentSession⟩

/-- C4 counterexample: with a generator stub returning empty text, start
does not fail — it returns a session with an empty draft and status
awaiting_approval, so the claimed GenerationError on empty text does not
exist in the code. -/
theorem claim_C4_counterexample :
    Except.map StartResult.email_draft
        (startWorkflow genEmpty "unknown" "draft update email" "s1") =
      .ok "" ∧
    Except.map StartResult.status
        (startWorkflow genEmpty "unknown" "draft update email" "s1") =
      .ok "awaiting_approval" ∧
    (startWorkflow genEmpty "unknown" "draft update email" "s1").isOk
      = true :=
  ⟨rfl, rfl, rfl⟩

/-- C4 amended: when the generator raises, start propagates the
generator's own exception and no session is produced, so the same start
may be retried; but when the generator returns empty text, start succeeds
with an empty draft — the code performs no emptiness check and defines no
GenerationError type. -/
theorem claim_C4_start_failure (gen : String → Except String String)
    (ts req sid : String) :
    (∀ e, gen req = .error e →
      startWorkflow gen ts req sid = .error (.generation e)) ∧
    (∀ d, gen req = .ok d →
      ∃ r, startWorkflow gen ts req sid = .ok r ∧
        r.email_draft = d ∧ r.status = "awaiting_approval") := by
  constructor
  · intro e he
    simp [startWorkflow, draftEmailNode, he]
  · intro d hd
    simp only [startWorkflow, draftEmailNode, hd]
    exact ⟨_, rfl, by simp, rfl⟩

/-- C4 witness: the amended claim evaluated on the failing generator
stub. -/
theorem claim_C4_witness :
    startWorkflow genFail "unknown" "draft update email" "s1" =
      .error (.generation "boom") :=
  (claim_C4_start_failure genFail "unknown" "draft update email" "s1").1
    "boom" rfl

/-- C5 counterexample: start with the Hello generator stub yields draft
Hello but status awaiting_approval, not the claimed
awaiting_enhancement_decision. -/
theorem claim_C5_counterexample :
    Except.map StartResult.email_draft
        (startWorkflow genHello "unknown" "draft update email" "s1") =
      .ok "Hello" ∧
    Except.map StartResult.status
        (startWorkflow genHello "unknown" "draft update email" "s1") =
      .ok "awaiting_approval" ∧
    "awaiting_approval" ≠ "awaiting_enhancement_decision" :=
  ⟨rfl, rfl, by decide⟩

/-- C5 amended: for every request on which the generator succeeds, start
returns a session whose draft equals the generator's output and whose
status is the literal awaiting_approval (the single await state of this
workflow, which has no enhancement step). -/
theorem claim_C5_start_success (gen : String → Except String String)
    (ts req sid d : String) (h : gen req = .ok d) :
    ∃ r, startWorkflow gen ts req sid = .ok r ∧ r.email_draft = d ∧
      r.current_state.email_draft = some d ∧
      r.status = "awaiting_approval" := by
  simp only [startWorkflow, draftEmailNode, h]
  exact ⟨_, rfl, by simp, rfl, rfl⟩

/-- C5 witness: the amended claim evaluated on the Hello generator
stub. -/
theorem claim_C5_witness :
    Except.map StartResult.status
        (startWorkflow genHello "unknown" "draft update email" "s1") =
      .ok "awaiting_approval" := by
  obtain ⟨r, hr, -, -, hs⟩ := claim_C5_start_success genHello "unknown"
    "draft update email" "s1" "Hello" rfl
  rw [hr, Except.map, hs]

/-- C6: spec-modelled send failure contract — when decide_send is called
with yes and the Send Sink fails, the operation surfaces SendError and
returns no mutated session, so the caller's session still has status
awaiting_send_decision and the send may be retried without re-approving:
the same decide_send call with a succeeding sink transitions to sent. -/
theorem claim_C6_send_failure (sink : String → Except String String)
    (sess : SpecSession) (choice e : String)
    (h1 : sess.status = .awaiting_send_decision)
    (h2 : cleanFeedback choice = "yes")
    (h3 : sink sess.draft = .error e) :
    decide_send sink sess choice = .error .sendError ∧
    ∀ sink2 m, sink2 sess.draft = .ok m →
      decide_send sink2 sess choice = .ok { sess with status := .sent } := by
  constructor
  · simp [decide_send, h1, h2, h3]
  · intro sink2 m hm
    simp [decide_send, h1, h2, hm]

/-- C6 witness: the failure contract evaluated on the concrete awaiting
session with a failing sink, then retried with a succeeding sink. -/
theorem claim_C6_witness :
    decide_send sinkFail c6Session "yes" = .error .sendError ∧
    decide_send sinkOk c6Session "yes" =
      .ok { session_id := "s1", draft := "Hello", status := .sent } := by
  obtain ⟨ha, hb⟩ := claim_C6_send_failure sinkFail c6Session "yes"
    "smtp down" rfl (by decide) rfl
  exact ⟨ha, hb sinkOk "m1" rfl⟩

/-- C7: every decision input other than the case-insensitively trimmed
"yes" routes to cancel_operation, exactly as "no" does; resuming with any
such input produces the same result as "no" up to the recorded feedback
string itself, with the draft unmodified and metadata status cancelled. -/
theorem claim_C7_nonyes (ts f : String) (s : GraphState)
    (h : cleanFeedback f ≠ "yes") :
    shouldSendEmail { s with user_feedback := some f } =
      "cancel_operation" ∧
    ∃ res, resumeWorkflow ts s f = .ok res ∧
      resumeWorkflow ts s "no" =
        .ok { res with final_state :=
          { res.final_state with user_feedback := some "no" } } ∧
      res.final_state.email_draft = s.email_draft ∧
      mget res.final_state.metadata "status" =
        some (.s "cancelled") := by
  have hno : cleanFeedback "no" ≠ "yes" := by decide
  constructor
  · simp [shouldSendEmail, h]
  · simp only [resumeWorkflow, resumeWorkflowT_eq_no ts f s h,
      resumeWorkflowT_eq_no ts "no" s hno]
    exact ⟨_, rfl, rfl, rfl, mget_mset_self _ _ _⟩

/-- C7 witness: the non-yes equivalence evaluated at the input maybe on
the concrete awaiting session. -/
theorem claim_C7_witness :
    shouldSendEmail { awaitingSession with user_feedback := some "maybe" }
      = "cancel_operation" ∧
    resumeWorkflow "unknown" awaitingSession "maybe" =
      .ok { session_id := "s1",
            final_state :=
              { user_request := "draft update email",
                session_id := "s1",
                email_draft := some "Hello",
                user_feedback := some "maybe",
                metadata := [("status", MVal.s "cancelled")] },
            status := "completed" } :=
  ⟨(claim_C7_nonyes "unknown" "maybe" awaitingSession (by decide)).1, rfl⟩

/-- C9: resume_workflow always returns the literal top-level status
completed, for the send branch and the cancel branch alike; the actual
outcome is recorded only in the final state's metadata status key. -/
theorem claim_C9_completed (ts : String) (s : GraphState) (f : String) :
    ∃ res, resumeWorkflow ts s f = .ok res ∧ res.status = "completed" ∧
      mget res.final_state.metadata "status" =
        some (.s (if cleanFeedback f = "yes" then "sent"
          else "cancelled")) := by
  by_cases h : cleanFeedback f = "yes"
  · simp only [resumeWorkflow, resumeWorkflowT_eq_yes ts f s h, h,
      if_pos]
    refine ⟨_, rfl, rfl, ?_⟩
    rw [mget_mset_ne _ _ _ _ (by decide), mget_mset_self]
  · simp only [resumeWorkflow, resumeWorkflowT_eq_no ts f s h, if_neg h]
    exact ⟨_, rfl, rfl, mget_mset_self _ _ _⟩

theorem approve_status (s : ToolSession) (c : String) (s' : ToolSession)
    (h : approve s c = Except.ok s') : s.status = .human_approval := by
  by_cases hs : s.status = .human_approval
  · exact hs
  · simp [approve, hs] at h

theorem toolInv_decide (s s' : ToolSession) (c : String)
    (h : approve s c = Except.ok s') (hinv : ToolInv s) : ToolInv s' := by
  have hs := approve_status s c s' h
  have hrc : s.retry_count ≠ MAX_RETRIES := fun hh => by
    have h2 := hinv.2 hh
    rw [hs] at h2
    cases h2
  have hlt : s.retry_count < MAX_RETRIES :=
    lt_of_le_of_ne hinv.1 hrc
  simp only [approve, hs, ne_eq, not_true_eq_false, if_false] at h
  split_ifs at h with hyes hretry hcap
  · injection h with h
    subst h
    exact ⟨hinv.1, fun hh => by
      have h2 := hinv.2 hh
      rw [hs] at h2
      cases h2⟩
  · injection h with h
    subst h
    exact ⟨Nat.succ_le_of_lt hlt, fun _ => rfl⟩
  · injection h with h
    subst h
    refine ⟨Nat.le_of_lt (Nat.lt_of_not_le hcap), ?_⟩
    exact fun hh => absurd hh (Nat.ne_of_lt (Nat.lt_of_not_le hcap))
  · injection h with h
    subst h
    exact ⟨hinv.1, fun hh => by
      have h2 := hinv.2 hh
      rw [hs] at h2
      cases h2⟩

theorem toolInv_step (s s' : ToolSession) (hstep : ToolStep s s')
    (hinv : ToolInv s) : ToolInv s' := by
  cases hstep with
  | propose h =>
    exact ⟨hinv.1, fun hh => by
      have h2 := hinv.2 hh
      rw [h] at h2
      cases h2⟩
  | decide s' c h => exact toolInv_decide s s' c h hinv
  | execute h =>
    exact ⟨hinv.1, fun hh => by
      have h2 := hinv.2 hh
      rw [h] at h2
      cases h2⟩

theorem toolInv_reachable (s : ToolSession) (h : ToolReachable s) :
    ToolInv s := by
  unfold ToolReachable at h
  induction h with
  | refl => exact ⟨by decide, fun hh => absurd hh (by decide)⟩
  | tail h1 h2 ih => exact toolInv_step _ _ h2 ih

/-- C3: spec-modelled tool-use retry gate — the retry count starts at 0,
never decreases along any step of the loop, changes only on the explicit
retry choice (and then by exactly one), never exceeds MAX_RETRIES on any
reachable session, and the retry on which the count reaches MAX_RETRIES
transitions to max_retries_reached while an under-cap retry returns to
agent_deciding with the count preserved. -/
theorem claim_C3_retry_bound :
    initToolSession.retry_count = 0 ∧
    (∀ s s' : ToolSession, ToolStep s s' →
      s.retry_count ≤ s'.retry_count) ∧
    (∀ (s : ToolSession) (c : String) (s' : ToolSession),
      approve s c = Except.ok s' → s'.retry_count ≠ s.retry_count →
      c = "retry" ∧ s'.retry_count = s.retry_count + 1) ∧
    (∀ s : ToolSession, ToolReachable s →
      s.retry_count ≤ MAX_RETRIES) ∧
    (∀ s : ToolSession, s.status = .human_approval →
      s.retry_count + 1 = MAX_RETRIES →
      approve s "retry" =
        .ok { retry_count := MAX_RETRIES,
              status := .max_retries_reached }) ∧
    (∀ s : ToolSession, s.status = .human_approval →
      s.retry_count + 1 < MAX_RETRIES →
      approve s "retry" =
        .ok { retry_count := s.retry_count + 1,
              status := .agent_deciding }) := by
  refine ⟨rfl, ?_, ?_, ?_, ?_, ?_⟩
  · intro s s' hstep
    cases hstep with
    | propose h => exact Nat.le_refl _
    | decide s' c h =>
      have hs := approve_status s c s' h
      simp only [approve, hs, ne_eq, not_true_eq_false, if_false] at h
      split_ifs at h with hyes hretry hcap <;> injection h with h <;>
        subst h
      · exact Nat.le_refl _
      · exact Nat.le_succ _
      · exact Nat.le_succ _
      · exact Nat.le_refl _
    | execute h => exact Nat.le_refl _
  · intro s c s' h hne
    have hs := approve_status s c s' h
    simp only [approve, hs, ne_eq, not_true_eq_false, if_false] at h
    split_ifs at h with hyes hretry hcap <;> injection h with h <;>
      subst h
    · exact absurd rfl hne
    · exact ⟨hretry, rfl⟩
    · exact ⟨hretry, rfl⟩
    · exact absurd rfl hne
  · intro s h
    exact (toolInv_reachable s h).1
  · intro s hs hcap
    simp only [approve, hs, ne_eq, not_true_eq_false, if_false,
      if_neg (by decide : ¬ ("retry" = "yes")), if_pos rfl,
      if_pos (Nat.le_of_eq hcap.symm)]
    rw [hcap]
    simp
  · intro s hs hcap
    simp only [approve, hs, ne_eq, not_true_eq_false, if_false,
      if_neg (by decide : ¬ ("retry" = "yes")), if_pos rfl,
      if_neg (Nat.not_le_of_lt hcap)]
    simp

/-- C3 witness: the retry-gate facts evaluated concretely — the count
starts at 0, the under-cap first retry returns to agent_deciding with
count 1, and the retry that makes the count 3 lands in
max_retries_reached. -/
theorem claim_C3_witness :
    initToolSession.retry_count = 0 ∧
    approve { retry_count := 0, status := .human_approval } "retry" =
      .ok { retry_count := 1, status := .agent_deciding } ∧
    approve { retry_count := 2, status := .human_approval } "retry" =
      .ok { retry_count := 3, status := .max_retries_reached } ∧
    initToolSession.retry_count ≤ MAX_RETRIES :=
  ⟨claim_C3_retry_bound.1,
   claim_C3_retry_bound.2.2.2.2.2 _ rfl (by decide),
   claim_C3_retry_bound.2.2.2.2.1 _ rfl (by decide),
   claim_C3_retry_bound.2.2.2.1 initToolSession Relation.ReflTransGen.refl⟩

/-! ## Theorems: the scratch-area lock -/

theorem getNth_setNth_self {α : Type} (l : List α) (i : Nat) (x a : α)
    (h : getNth l i = some x) : getNth (setNth l i a) i = some a := by
  induction l generalizing i with
  | nil => simp [getNth] at h
  | cons y l ih =>
    cases i with
    | zero => rfl
    | succ n => exact ih n h

theorem getNth_setNth_ne {α : Type} (l : List α) (i j : Nat) (a : α)
    (h : j ≠ i) : getNth (setNth l i a) j = getNth l j := by
  induction l generalizing i j with
  | nil => rfl
  | cons y l ih =>
    cases i with
    | zero =>
      cases j with
      | zero => exact absurd rfl h
      | succ m => rfl
    | succ n =>
      cases j with
      | zero => rfl
      | succ m => exact ih n m (fun hh => h (by rw [hh]))

theorem mem_of_getNth {α : Type} (l : List α) (i : Nat) (x : α)
    (h : getNth l i = some x) : x ∈ l := by
  induction l generalizing i with
  | nil => simp [getNth] at h
  | cons y l ih =>
    cases i with
    | zero =>
      injection h with h
      exact h ▸ List.mem_cons_self y l
    | succ n => exact List.mem_cons_of_mem _ (ih n h)

theorem getNth_of_mem {α : Type} (l : List α) (x : α) (h : x ∈ l) :
    ∃ i, getNth l i = some x := by
  induction l with
  | nil => cases h
  | cons y l ih =>
    rcases List.mem_cons.mp h with h | h
    · subst h
      exact ⟨0, rfl⟩
    · obtain ⟨i, hi⟩ := ih h
      exact ⟨i + 1, hi⟩

theorem mem_setNth {α : Type} (l : List α) (i : Nat) (a q : α)
    (h : q ∈ setNth l i a) : q = a ∨ q ∈ l := by
  induction l generalizing i with
  | nil => cases h
  | cons y l ih =>
    cases i with
    | zero =>
      rcases List.mem_cons.mp h with h | h
      · exact Or.inl h
      · exact Or.inr (List.mem_cons_of_mem _ h)
    | succ n =>
      rcases List.mem_cons.mp h with h | h
      · exact Or.inr (h ▸ List.mem_cons_self _ _)
      · rcases ih n h with h | h
        · exact Or.inl h
        · exact Or.inr (List.mem_cons_of_mem _ h)

theorem suffixes_after_set (cts : List (List LAct)) (i : Nat)
    (rest : List LAct) (hsuf : ∀ p ∈ cts, p ∈ allSuffixes)
    (hrest : rest ∈ allSuffixes) :
    ∀ p ∈ setNth cts i rest, p ∈ allSuffixes := by
  intro p hp
  rcases mem_setNth _ _ _ _ hp with h | h
  · exact h ▸ hrest
  · exact hsuf _ h

theorem others_after_set (cts : List (List LAct)) (i : Nat)
    (rest : List LAct)
    (hothers : ∀ j q, j ≠ i → getNth cts j = some q →
      holding q = false) :
    ∀ j q, j ≠ i → getNth (setNth cts i rest) j = some q →
      holding q = false := by
  intro j q hj hq
  rw [getNth_setNth_ne _ _ _ _ hj] at hq
  exact hothers j q hj hq

theorem LInv_holder (c : LConf) (hinv : LInv c) (i : Nat)
    (p : List LAct) (hget : getNth c.threads i = some p)
    (hp : holding p = true) :
    c.lock = some i ∧
    (∀ j q, j ≠ i → getNth c.threads j = some q →
      holding q = false) ∧
    (c.jobMid = true → p.head? = some .popJob) ∧
    (c.cvMid = true → p.head? = some .popCv) := by
  obtain ⟨hsuf, hnone, hsome⟩ := hinv
  cases hl : c.lock with
  | none =>
    have h0 := (hnone hl).1 p (mem_of_getNth _ _ _ hget)
    rw [hp] at h0
    cases h0
  | some k =>
    obtain ⟨p₀, hp₀, hold₀, hothers, hjm, hcm⟩ := hsome k hl
    by_cases hik : i = k
    · subst hik
      rw [hget] at hp₀
      injection hp₀ with hp₀
      subst hp₀
      exact ⟨rfl, hothers, hjm, hcm⟩
    · have h0 := hothers i p hik hget
      rw [hp] at h0
      cases h0

theorem LInv_inside (c : LConf) (i : Nat) (a : LAct)
    (rest : List LAct) (hinv : LInv c)
    (hget : getNth c.threads i = some (a :: rest))
    (hhold : holding (a :: rest) = true)
    (hrest : rest ∈ allSuffixes) (hhold2 : holding rest = true)
    (hlk : (applyAct c i a rest).lock = c.lock)
    (hth : (applyAct c i a rest).threads = setNth c.threads i rest)
    (hjm : (applyAct c i a rest).jobMid = true →
      rest.head? = some .popJob)
    (hcm : (applyAct c i a rest).cvMid = true →
      rest.head? = some .popCv) :
    LInv (applyAct c i a rest) := by
  obtain ⟨hl, hothers, _, _⟩ := LInv_holder c hinv i _ hget hhold
  refine ⟨?_, ?_, ?_⟩
  · rw [hth]
    exact suffixes_after_set _ _ _ hinv.1 hrest
  · intro hn
    rw [hlk, hl] at hn
    cases hn
  · intro k hk
    rw [hlk, hl] at hk
    injection hk with hk
    subst hk
    refine ⟨rest, ?_, hhold2, ?_, hjm, hcm⟩
    · rw [hth]
      exact getNth_setNth_self _ _ _ _ hget
    · rw [hth]
      exact others_after_set _ _ _ hothers

end RecruiterAgent
namespace RecruiterAgent

theorem LInv_acquire (c : LConf) (i : Nat) (rest : List LAct)
    (hinv : LInv c)
    (hget : getNth c.threads i = some (LAct.acquire :: rest))
    (hl : c.lock = none) (hrest : rest ∈ allSuffixes)
    (hhold2 : holding rest = true) :
    LInv (applyAct c i .acquire rest) := by
  obtain ⟨hsuf, hnone, hsome⟩ := hinv
  obtain ⟨hnoh, hjm0, hcm0⟩ := hnone hl
  refine ⟨?_, ?_, ?_⟩
  · exact suffixes_after_set _ _ _ hsuf hrest
  · intro hn
    simp [applyAct] at hn
  · intro k hk
    simp only [applyAct] at hk
    injection hk with hk
    subst hk
    refine ⟨rest, ?_, hhold2, ?_, ?_, ?_⟩
    · exact getNth_setNth_self _ _ _ _ hget
    · exact others_after_set _ _ _
        (fun j q _ hq => hnoh q (mem_of_getNth _ _ _ hq))
    · intro hj'
      simp only [applyAct] at hj'
      rw [hjm0] at hj'
      cases hj'
    · intro hc'
      simp only [applyAct] at hc'
      rw [hcm0] at hc'
      cases hc'

theorem LInv_release (c : LConf) (i : Nat) (hinv : LInv c)
    (hget : getNth c.threads i = some [LAct.release])
    (hl : c.lock = some i) :
    LInv (applyAct c i .release []) := by
  obtain ⟨hsuf, hnone, hsome⟩ := hinv
  obtain ⟨p₀, hp₀, hold₀, hothers, hjm₀, hcm₀⟩ := hsome i hl
  rw [hget] at hp₀
  injection hp₀ with hp₀
  subst hp₀
  simp only [applyAct]
  refine ⟨?_, ?_, ?_⟩
  · exact suffixes_after_set _ _ _ hsuf (by decide)
  · intro _
    refine ⟨?_, ?_, ?_⟩
    · intro p hp
      rcases getNth_of_mem _ _ hp with ⟨j, hj⟩
      by_cases hji : j = i
      · subst hji
        rw [getNth_setNth_self _ _ _ _ hget] at hj
        injection hj with hj
        subst hj
        decide
      · rw [getNth_setNth_ne _ _ _ _ hji] at hj
        exact hothers j p hji hj
    · cases hb : c.jobMid with
      | false => rfl
      | true =>
        have hcontra := hjm₀ hb
        injection hcontra with hcontra
        cases hcontra
    · cases hb : c.cvMid with
      | false => rfl
      | true =>
        have hcontra := hcm₀ hb
        injection hcontra with hcontra
        cases hcontra
  · intro k hk
    cases hk

theorem LInv_step (c c' : LConf) (hstep : LStep c c') (hinv : LInv c) :
    LInv c' := by
  cases hstep with
  | mk i a rest hget hacq hrel =>
    have hmem : (a :: rest) ∈ allSuffixes :=
      hinv.1 _ (mem_of_getNth _ _ _ hget)
    simp only [allSuffixes, writerJobProg, writerCvProg, readerProg,
      List.mem_cons, List.mem_singleton] at hmem
    rcases hmem with h|h|h|h|h|h|h|h|h|h|h|h
    · injection h with ha hrest
      subst ha
      subst hrest
      exact LInv_acquire c i _ hinv hget (hacq rfl) (by decide) (by decide)
    · injection h with ha hrest
      subst ha
      subst hrest
      obtain ⟨-, -, -, hcm₀⟩ := LInv_holder c hinv i _ hget (by decide)
      refine LInv_inside c i _ _ hinv hget (by decide) (by decide)
        (by decide) rfl rfl (fun _ => rfl) ?_
      intro hcv
      have hcontra := hcm₀ hcv
      injection hcontra with hcontra
      cases hcontra
    · injection h with ha hrest
      subst ha
      subst hrest
      obtain ⟨-, -, -, hcm₀⟩ := LInv_holder c hinv i _ hget (by decide)
      refine LInv_inside c i _ _ hinv hget (by decide) (by decide)
        (by decide) rfl rfl (fun hb => nomatch hb) ?_
      intro hcv
      have hcontra := hcm₀ hcv
      injection hcontra with hcontra
      cases hcontra
    · injection h with ha hrest
      subst ha
      subst hrest
      exact LInv_acquire c i _ hinv hget (hacq rfl) (by decide) (by decide)
    · injection h with ha hrest
      subst ha
      subst hrest
      obtain ⟨-, -, hjm₀, -⟩ := LInv_holder c hinv i _ hget (by decide)
      refine LInv_inside c i _ _ hinv hget (by decide) (by decide)
        (by decide) rfl rfl ?_ (fun _ => rfl)
      intro hjb
      have hcontra := hjm₀ hjb
      injection hcontra with hcontra
      cases hcontra
    · injection h with ha hrest
      subst ha
      subst hrest
      obtain ⟨-, -, hjm₀, -⟩ := LInv_holder c hinv i _ hget (by decide)
      refine LInv_inside c i _ _ hinv hget (by decide) (by decide)
        (by decide) rfl rfl ?_ (fun hb => nomatch hb)
      intro hjb
      have hcontra := hjm₀ hjb
      injection hcontra with hcontra
      cases hcontra
    · injection h with ha hrest
      subst ha
      subst hrest
      exact LInv_acquire c i _ hinv hget (hacq rfl) (by decide) (by decide)
    · injection h with ha hrest
      subst ha
      subst hrest
      obtain ⟨-, -, hjm₀, hcm₀⟩ := LInv_holder c hinv i _ hget (by decide)
      refine LInv_inside c i _ _ hinv hget (by decide) (by decide)
        (by decide) rfl rfl ?_ ?_
      · intro hjb
        have hcontra := hjm₀ hjb
        injection hcontra with hcontra
        cases hcontra
      · intro hcv
        have hcontra := hcm₀ hcv
        injection hcontra with hcontra
        cases hcontra
    · injection h with ha hrest
      subst ha
      subst hrest
      obtain ⟨-, -, hjm₀, hcm₀⟩ := LInv_holder c hinv i _ hget (by decide)
      refine LInv_inside c i _ _ hinv hget (by decide) (by decide)
        (by decide) rfl rfl ?_ ?_
      · intro hjb
        have hcontra := hjm₀ hjb
        injection hcontra with hcontra
        cases hcontra
      · intro hcv
        have hcontra := hcm₀ hcv
        injection hcontra with hcontra
        cases hcontra
    · injection h with ha hrest
      subst ha
      subst hrest
      exact LInv_release c i hinv hget (hrel rfl)
    · cases h
    · cases h

end RecruiterAgent
namespace RecruiterAgent

theorem suffix_head_readJob (p : List LAct) (hp : p ∈ allSuffixes)
    (hh : p.head? = some .readJob) :
    p = [.readJob, .readCv, .release] := by
  fin_cases hp <;>
    simp_all [writerJobProg, writerCvProg, readerProg]

theorem suffix_head_readCv (p : List LAct) (hp : p ∈ allSuffixes)
    (hh : p.head? = some .readCv) : p = [.readCv, .release] := by
  fin_cases hp <;>
    simp_all [writerJobProg, writerCvProg, readerProg]

theorem LInv_no_observe (c : LConf) (hinv : LInv c) :
    Observes c = false := by
  obtain ⟨hsuf, hnone, hsome⟩ := hinv
  rw [Observes, List.any_eq_false]
  intro p hp
  simp only [Bool.or_eq_true, Bool.and_eq_true, decide_eq_true_eq,
    not_or, not_and]
  constructor
  · intro hh hmid
    cases hl : c.lock with
    | none =>
      have h0 := (hnone hl).2.1
      rw [hmid] at h0
      cases h0
    | some k =>
      obtain ⟨p₀, hp₀, hold₀, hothers, hjm, hcm⟩ := hsome k hl
      have hpval := suffix_head_readJob p (hsuf p hp) hh
      obtain ⟨j, hj⟩ := getNth_of_mem _ _ hp
      by_cases hjk : j = k
      · subst hjk
        rw [hj] at hp₀
        injection hp₀ with hp₀
        subst hp₀
        have hcontra := hjm hmid
        rw [hh] at hcontra
        injection hcontra with hcontra
        cases hcontra
      · have hcontra := hothers j p hjk hj
        rw [hpval] at hcontra
        exact absurd hcontra (by decide)
  · intro hh hmid
    cases hl : c.lock with
    | none =>
      have h0 := (hnone hl).2.2
      rw [hmid] at h0
      cases h0
    | some k =>
      obtain ⟨p₀, hp₀, hold₀, hothers, hjm, hcm⟩ := hsome k hl
      have hpval := suffix_head_readCv p (hsuf p hp) hh
      obtain ⟨j, hj⟩ := getNth_of_mem _ _ hp
      by_cases hjk : j = k
      · subst hjk
        rw [hj] at hp₀
        injection hp₀ with hp₀
        subst hp₀
        have hcontra := hcm hmid
        rw [hh] at hcontra
        injection hcontra with hcontra
        cases hcontra
      · have hcontra := hothers j p hjk hj
        rw [hpval] at hcontra
        exact absurd hcontra (by decide)

theorem LInv_init (ts : List (List LAct))
    (hts : ∀ p ∈ ts,
      p = writerJobProg ∨ p = writerCvProg ∨ p = readerProg) :
    LInv (initLConf ts) := by
  refine ⟨?_, ?_, ?_⟩
  · intro p hp
    rcases hts p hp with h | h | h <;> subst h <;> decide
  · intro _
    refine ⟨?_, rfl, rfl⟩
    intro p hp
    rcases hts p hp with h | h | h <;> subst h <;> decide
  · intro k hk
    cases hk

theorem LInv_reachable (ts : List (List LAct))
    (hts : ∀ p ∈ ts,
      p = writerJobProg ∨ p = writerCvProg ∨ p = readerProg)
    (c : LConf) (h : LReachable ts c) : LInv c := by
  unfold LReachable at h
  induction h with
  | refl => exact LInv_init ts hts
  | tail h1 h2 ih => exact LInv_step _ _ h2 ih

/-- C8: in every interleaved execution of the scratch-area access
sequences of extract_job_details, extract_applicant_details and
upload_file, a thread whose remaining work still owes a release — one that
is inside its clear-then-populate or copy critical section — is exactly
the thread holding the global lock, and no thread is ever about to copy a
dict that is cleared but not yet repopulated. -/
theorem claim_C8_scratch_lock (ts : List (List LAct)) (c : LConf)
    (hts : ∀ p ∈ ts,
      p = writerJobProg ∨ p = writerCvProg ∨ p = readerProg)
    (hr : LReachable ts c) :
    Observes c = false ∧
    (∀ i p, getNth c.threads i = some p → holding p = true →
      c.lock = some i) := by
  have hinv := LInv_reachable ts hts c hr
  exact ⟨LInv_no_observe c hinv,
    fun i p hg hh => (LInv_holder c hinv i p hg hh).1⟩

/-- C8 witness: the scratch-lock theorem evaluated at the initial
configuration of one job writer and one reader. -/
theorem claim_C8_witness :
    Observes (initLConf [writerJobProg, readerProg]) = false :=
  (claim_C8_scratch_lock [writerJobProg, readerProg] _
    (by
      intro p hp
      rcases List.mem_cons.mp hp with h | hp2
      · exact Or.inl h
      · rcases List.mem_cons.mp hp2 with h | h
        · exact Or.inr (Or.inr h)
        · cases h)
    Relation.ReflTransGen.refl).1

/-! ## Theorems: regular-expression search monotonicity -/

theorem nullable_matchesPfx (r : Rgx) (l : List Char)
    (h : nullable r = true) : matchesPfx r l = true := by
  cases l with
  | nil => exact h
  | cons c cs => simp [matchesPfx, h]

theorem matchesPfx_append (r : Rgx) (l l' : List Char)
    (h : matchesPfx r l = true) : matchesPfx r (l ++ l') = true := by
  induction l generalizing r with
  | nil => exact nullable_matchesPfx r l' h
  | cons c cs ih =>
    simp only [matchesPfx, Bool.or_eq_true] at h
    rcases h with h | h
    · rw [List.cons_append]
      simp [matchesPfx, h]
    · rw [List.cons_append]
      simp [matchesPfx, ih _ h]

theorem rsearch_of_nullable (r : Rgx) (l : List Char)
    (h : nullable r = true) : rsearch r l = true := by
  cases l with
  | nil => exact h
  | cons c cs => simp [rsearch, matchesPfx, h]

theorem rsearch_append_right (r : Rgx) (l v : List Char)
    (h : rsearch r l = true) : rsearch r (l ++ v) = true := by
  induction l with
  | nil => exact rsearch_of_nullable r v h
  | cons c cs ih =>
    simp only [rsearch, Bool.or_eq_true] at h
    rcases h with h | h
    · have hm := matchesPfx_append r (c :: cs) v h
      rw [List.cons_append]
      simp only [rsearch, Bool.or_eq_true]
      exact Or.inl hm
    · rw [List.cons_append]
      simp only [rsearch, Bool.or_eq_true]
      exact Or.inr (ih h)

theorem rsearch_append_left (r : Rgx) (u l : List Char)
    (h : rsearch r l = true) : rsearch r (u ++ l) = true := by
  induction u with
  | nil => exact h
  | cons c cs ih =>
    rw [List.cons_append]
    simp only [rsearch, Bool.or_eq_true]
    exact Or.inr ih

theorem InfixOf_refl (l : List Char) : InfixOf l l :=
  ⟨[], [], by simp⟩

theorem InfixOf_trans (a b c : List Char) (h1 : InfixOf a b)
    (h2 : InfixOf b c) : InfixOf a c := by
  obtain ⟨u, v, rfl⟩ := h1
  obtain ⟨u', v', rfl⟩ := h2
  exact ⟨u' ++ u, v ++ v', by simp⟩

theorem InfixOf_nil_left (l : List Char) : InfixOf [] l :=
  ⟨[], l, by simp⟩

theorem InfixOf_map (f : Char → Char) (t s : List Char)
    (h : InfixOf t s) : InfixOf (t.map f) (s.map f) := by
  obtain ⟨u, v, rfl⟩ := h
  exact ⟨u.map f, v.map f, by simp⟩

theorem eq_nil_of_InfixOf_nil (t : List Char) (h : InfixOf t []) :
    t = [] := by
  obtain ⟨u, v, hh⟩ := h
  have := List.append_eq_nil.mp hh.symm
  have := List.append_eq_nil.mp this.1
  exact this.2

theorem rsearch_infixOf (r : Rgx) (t s : List Char) (hinf : InfixOf t s)
    (h : rsearch r t = true) : rsearch r s = true := by
  obtain ⟨u, v, rfl⟩ := hinf
  rw [List.append_assoc]
  exact rsearch_append_left r u _ (rsearch_append_right r t v h)

theorem isQuoteLine_infixOf (t s : List Char) (hinf : InfixOf t s)
    (h : isQuoteLine t = true) : isQuoteLine s = true := by
  rw [isQuoteLine, List.any_eq_true] at h ⊢
  obtain ⟨r, hr, hmatch⟩ := h
  exact ⟨r, hr,
    rsearch_infixOf r _ _ (InfixOf_map asciiLower _ _ hinf) hmatch⟩

end RecruiterAgent
namespace RecruiterAgent

/-! ## Theorems: line splitting and joining -/

theorem splitNl_ne_nil (s : List Char) : splitNl s ≠ [] := by
  cases s with
  | nil => simp [splitNl]
  | cons c cs =>
    simp only [splitNl]
    split <;> simp

theorem splitNl_no_nl (s : List Char) : ∀ l ∈ splitNl s, '\n' ∉ l := by
  induction s with
  | nil =>
    intro l hl
    simp [splitNl] at hl
    subst hl
    simp
  | cons c cs ih =>
    intro l hl
    by_cases hc : c = '\n'
    · simp only [splitNl, if_pos hc] at hl
      rcases List.mem_cons.mp hl with h | h
      · subst h
        simp
      · exact ih l h
    · simp only [splitNl, if_neg hc] at hl
      cases hsp : splitNl cs with
      | nil => exact absurd hsp (splitNl_ne_nil cs)
      | cons h0 t0 =>
        rw [hsp] at hl
        simp only [List.headI, List.tail] at hl
        rcases List.mem_cons.mp hl with h | h
        · subst h
          intro hmem
          rcases List.mem_cons.mp hmem with h | h
          · exact hc h.symm
          · exact ih h0 (by rw [hsp]; exact List.mem_cons_self _ _) h
        · exact ih l (by rw [hsp]; exact List.mem_cons_of_mem _ h)

theorem splitNl_nlfree (x : List Char) (hx : '\n' ∉ x) :
    splitNl x = [x] := by
  induction x with
  | nil => rfl
  | cons c cs ih =>
    have hc : c ≠ '\n' := fun h => hx (h ▸ List.mem_cons_self _ _)
    have hcs : '\n' ∉ cs := fun h => hx (List.mem_cons_of_mem _ h)
    simp [splitNl, if_neg hc, ih hcs]

theorem splitNl_append_nl (x t : List Char) (hx : '\n' ∉ x) :
    splitNl (x ++ '\n' :: t) = x :: splitNl t := by
  induction x with
  | nil => simp [splitNl]
  | cons c cs ih =>
    have hc : c ≠ '\n' := fun h => hx (h ▸ List.mem_cons_self _ _)
    have hcs : '\n' ∉ cs := fun h => hx (List.mem_cons_of_mem _ h)
    rw [List.cons_append]
    simp [splitNl, if_neg hc, ih hcs]

theorem splitNl_joinNl (L : List (List Char))
    (hL : ∀ x ∈ L, '\n' ∉ x) (hne : L ≠ []) :
    splitNl (joinNl L) = L := by
  induction L with
  | nil => exact absurd rfl hne
  | cons x L ih =>
    cases L with
    | nil => exact splitNl_nlfree x (hL x (List.mem_cons_self _ _))
    | cons y L' =>
      show splitNl (x ++ '\n' :: joinNl (y :: L')) = x :: y :: L'
      rw [splitNl_append_nl x _ (hL x (List.mem_cons_self _ _))]
      rw [ih (fun z hz => hL z (List.mem_cons_of_mem _ hz)) (by simp)]

theorem mem_modLast (L : List (List Char)) (h : List Char)
    (l : List Char) (hl : l ∈ L) :
    ∃ l', l' ∈ modLast L h ∧ InfixOf l l' := by
  induction L with
  | nil => cases hl
  | cons x L ih =>
    cases L with
    | nil =>
      rcases List.mem_cons.mp hl with hh | hh
      · subst hh
        exact ⟨l ++ h, List.mem_singleton.mpr rfl, ⟨[], h, by simp⟩⟩
      · cases hh
    | cons y L' =>
      rcases List.mem_cons.mp hl with hh | hh
      · subst hh
        exact ⟨l, List.mem_cons_self _ _, InfixOf_refl l⟩
      · obtain ⟨l', hl', hinf⟩ := ih hh
        exact ⟨l', List.mem_cons_of_mem _ hl', hinf⟩

theorem splitNl_append (t v : List Char) (h : List Char)
    (tl : List (List Char)) (hv : splitNl v = h :: tl) :
    splitNl (t ++ v) = modLast (splitNl t) h ++ tl := by
  induction t with
  | nil =>
    simp only [List.nil_append, hv, splitNl, modLast]
    rfl
  | cons c cs ih =>
    rw [List.cons_append]
    by_cases hc : c = '\n'
    · simp only [splitNl, if_pos hc, ih]
      cases hsp : splitNl cs with
      | nil => exact absurd hsp (splitNl_ne_nil cs)
      | cons h3 t3 =>
        rfl
    · cases hsp : splitNl cs with
      | nil => exact absurd hsp (splitNl_ne_nil cs)
      | cons h3 t3 =>
        cases t3 with
        | nil =>
          simp only [splitNl, if_neg hc, ih, hsp, modLast]
          rfl
        | cons z zs =>
          simp only [splitNl, if_neg hc, ih, hsp, modLast]
          rfl

end RecruiterAgent
namespace RecruiterAgent

theorem lines_append_right (t v : List Char) (l : List Char)
    (hl : l ∈ splitNl t) :
    ∃ l', l' ∈ splitNl (t ++ v) ∧ InfixOf l l' := by
  cases hv : splitNl v with
  | nil => exact absurd hv (splitNl_ne_nil v)
  | cons h tl =>
    rw [splitNl_append t v h tl hv]
    obtain ⟨l', hl', hinf⟩ := mem_modLast (splitNl t) h l hl
    exact ⟨l', List.mem_append_left _ hl', hinf⟩

theorem lines_cons (c : Char) (s : List Char) (l : List Char)
    (hl : l ∈ splitNl s) :
    ∃ l', l' ∈ splitNl (c :: s) ∧ InfixOf l l' := by
  cases hsp : splitNl s with
  | nil => exact absurd hsp (splitNl_ne_nil s)
  | cons h0 t0 =>
    by_cases hc : c = '\n'
    · refine ⟨l, ?_, InfixOf_refl l⟩
      simp only [splitNl, if_pos hc]
      exact List.mem_cons_of_mem _ hl
    · rw [hsp] at hl
      rcases List.mem_cons.mp hl with hh | hh
      · subst hh
        refine ⟨c :: l, ?_, ⟨[c], [], by simp⟩⟩
        simp only [splitNl, if_neg hc, hsp, List.headI, List.tail]
        exact List.mem_cons_self _ _
      · refine ⟨l, ?_, InfixOf_refl l⟩
        simp only [splitNl, if_neg hc, hsp, List.headI, List.tail]
        exact List.mem_cons_of_mem _ hh

theorem lines_append_left (u s : List Char) (l : List Char)
    (hl : l ∈ splitNl s) :
    ∃ l', l' ∈ splitNl (u ++ s) ∧ InfixOf l l' := by
  induction u with
  | nil => exact ⟨l, hl, InfixOf_refl l⟩
  | cons c cs ih =>
    obtain ⟨l', hl', hinf⟩ := ih
    obtain ⟨l'', hl'', hinf'⟩ := lines_cons c (cs ++ s) l' hl'
    exact ⟨l'', hl'', InfixOf_trans _ _ _ hinf hinf'⟩

theorem lines_infixOf (t s : List Char) (hinf : InfixOf t s)
    (l : List Char) (hl : l ∈ splitNl t) :
    ∃ l', l' ∈ splitNl s ∧ InfixOf l l' := by
  obtain ⟨u, v, rfl⟩ := hinf
  obtain ⟨l₁, hl₁, hinf₁⟩ := lines_append_right t v l hl
  obtain ⟨l₂, hl₂, hinf₂⟩ := lines_append_left u (t ++ v) l₁ hl₁
  refine ⟨l₂, ?_, InfixOf_trans _ _ _ hinf₁ hinf₂⟩
  rw [List.append_assoc]
  exact hl₂

/-! ## Theorems: the cleaning pipeline is an infix of the kept text -/

theorem dropWhile_infixOf (p : Char → Bool) (l : List Char) :
    InfixOf (l.dropWhile p) l :=
  ⟨l.takeWhile p, [],
    by rw [List.append_nil, List.takeWhile_append_dropWhile]⟩

theorem dropTrailWhile_prefix (p : Char → Bool) (l : List Char) :
    ∃ w, l = dropTrailWhile p l ++ w := by
  refine ⟨(l.reverse.takeWhile p).reverse, ?_⟩
  rw [dropTrailWhile, ← List.reverse_append,
    List.takeWhile_append_dropWhile, List.reverse_reverse]

theorem dropTrailWhile_infixOf (p : Char → Bool) (l : List Char) :
    InfixOf (dropTrailWhile p l) l := by
  obtain ⟨w, hw⟩ := dropTrailWhile_prefix p l
  exact ⟨[], w, by rw [List.nil_append]; exact hw⟩

theorem pyStripL_infixOf (l : List Char) : InfixOf (pyStripL l) l :=
  InfixOf_trans _ _ _ (dropTrailWhile_infixOf _ _) (dropWhile_infixOf _ l)

theorem subTrailingDashes_infixOf (l : List Char) :
    InfixOf (subTrailingDashes l) l := by
  rw [subTrailingDashes]
  split
  · split
    · exact InfixOf_trans _ _ _ (dropTrailWhile_infixOf _ _)
        (dropTrailWhile_infixOf _ _)
    · exact InfixOf_refl l
  · exact InfixOf_refl l

theorem cleanEmailBody_infixOf (body : List Char) :
    InfixOf (cleanEmailBody body)
      (joinNl (keepLines (splitNl body))) := by
  rw [cleanEmailBody]
  by_cases hb : body = []
  · rw [if_pos hb]
    exact InfixOf_nil_left _
  · rw [if_neg hb]
    exact InfixOf_trans _ _ _ (pyStripL_infixOf _)
      (InfixOf_trans _ _ _ (subTrailingDashes_infixOf _)
        (pyStripL_infixOf _))

/-! ## Theorems: the kept lines -/

theorem keepLines_eq_takeWhile (ls : List (List Char)) :
    keepLines ls = ls.takeWhile (fun l => !isQuoteLine l) := by
  induction ls with
  | nil => rfl
  | cons l ls ih =>
    by_cases h : isQuoteLine l
    · simp [keepLines, h, List.takeWhile_cons]
    · simp [keepLines, h, List.takeWhile_cons, ih]

theorem mem_keepLines (ls : List (List Char)) (l : List Char)
    (h : l ∈ keepLines ls) : isQuoteLine l = false ∧ l ∈ ls := by
  induction ls with
  | nil => cases h
  | cons x ls ih =>
    by_cases hx : isQuoteLine x
    · rw [keepLines, if_pos hx] at h
      cases h
    · rw [keepLines, if_neg hx] at h
      rcases List.mem_cons.mp h with hh | hh
      · subst hh
        exact ⟨Bool.eq_false_iff.mpr hx, List.mem_cons_self _ _⟩
      · obtain ⟨h1, h2⟩ := ih hh
        exact ⟨h1, List.mem_cons_of_mem _ h2⟩

theorem keepLines_prefix_decomp (ls : List (List Char)) :
    ∃ rest, ls = keepLines ls ++ rest := by
  refine ⟨ls.dropWhile (fun l => !isQuoteLine l), ?_⟩
  rw [keepLines_eq_takeWhile, List.takeWhile_append_dropWhile]

end RecruiterAgent
namespace RecruiterAgent

/-- C10: the kept lines of _clean_email_body are exactly the lines of the
input preceding the first line on which a quote pattern is found (a prefix
of the input's lines); after joining, stripping and removing a trailing
dash/underscore run, no line of the result matches any quote pattern; and
the empty string maps to the empty string. -/
theorem claim_C10_clean_email_body (body : List Char) :
    keepLines (splitNl body) =
      (splitNl body).takeWhile (fun l => !isQuoteLine l) ∧
    (∃ rest, splitNl body = keepLines (splitNl body) ++ rest) ∧
    (∀ l ∈ splitNl (cleanEmailBody body), isQuoteLine l = false) ∧
    cleanEmailBody [] = [] := by
  refine ⟨keepLines_eq_takeWhile _, keepLines_prefix_decomp _, ?_, rfl⟩
  intro l hl
  obtain ⟨l', hl', hinf⟩ :=
    lines_infixOf _ _ (cleanEmailBody_infixOf body) l hl
  by_cases hk : keepLines (splitNl body) = []
  · rw [hk] at hl'
    simp only [joinNl, splitNl, List.mem_singleton] at hl'
    subst hl'
    have hl0 : l = [] := eq_nil_of_InfixOf_nil _ hinf
    subst hl0
    decide
  · have hnl : ∀ x ∈ keepLines (splitNl body), '\n' ∉ x := by
      intro x hx
      exact splitNl_no_nl body x (mem_keepLines _ _ hx).2
    rw [splitNl_joinNl _ hnl hk] at hl'
    have hq : isQuoteLine l' = false := (mem_keepLines _ _ hl').1
    cases hql : isQuoteLine l with
    | false => rfl
    | true =>
      have hcontra := isQuoteLine_infixOf l l' hinf hql
      rw [hq] at hcontra
      cases hcontra

end RecruiterAgent
namespace RecruiterAgent

/-- C10 witness: the no-quote-line property evaluated on a concrete body
whose second line is a quote line. -/
theorem claim_C10_witness :
    ("hi".data ∈ splitNl (cleanEmailBody ("hi\nTo: a@b\nx".data))) ∧
    isQuoteLine "hi".data = false := by
  have hmem : "hi".data ∈ splitNl (cleanEmailBody ("hi\nTo: a@b\nx".data)) := by
    decide
  exact ⟨hmem,
    (claim_C10_clean_email_body ("hi\nTo: a@b\nx".data)).2.2.1 _ hmem⟩

end RecruiterAgent
